import Mathlib

/-!
Verification of the image-to-vector pipeline of `transformicedrawey`.

The Rust sources are embedded shallowly:
* `f64` values are modelled as exact rationals (`ℚ`) where only field
  arithmetic and comparisons occur, and as reals (`ℝ`) where square roots
  (`hypot`) appear;
* `usize` becomes `Nat`, `i32` becomes `Int` (no arithmetic in the sources
  comes near the `i32`/`usize` overflow boundaries);
* fallible operations (`Option` returns, length-mismatch panics) become
  `Option`;
* the border-following loop of `contour_trace`, whose termination is one of
  the questions under study, is embedded with an explicit fuel parameter:
  `none` means the fuel ran out, `some` carries the mutated image.

`src/src/main.rs` in the snapshot calls `contour::contours(&thinned,
threshold, epsilon)` with three arguments and `src/src/contour.rs` calls
`simplify::simplify_borders(image.curves(), epsilon)` on a list of curves,
but the `contours` present takes only `(image, epsilon)` (hard-coding the
0.5 cutoff) and the `simplify_borders` present takes `&[(i32, Line)]`: the
snapshot mixes revisions, and the threshold-parameterised binarizer and the
Ramer-Douglas-Peucker curve simplifier that the spec describes are not in
the snapshot.  Those two definitions are modelled from the spec below and
are marked as such; everything else is translated from the Rust sources.
-/

/-- Position in normalized coordinates (`Pos` in `src/src/contour.rs`),
with `f64` fields modelled as `ℚ`. -/
structure Pos where
  x : ℚ
  y : ℚ
deriving DecidableEq, Repr

namespace Pos

/-- `Pos::new` from `src/src/contour.rs`. -/
def new (x y : ℚ) : Pos := ⟨x, y⟩

/-- Subtraction of positions (`impl Sub for Pos`). -/
instance : Sub Pos := ⟨fun a b => ⟨a.x - b.x, a.y - b.y⟩⟩

/-- Addition of positions (`impl Add for Pos`). -/
instance : Add Pos := ⟨fun a b => ⟨a.x + b.x, a.y + b.y⟩⟩

/-- `Pos::magnitude`, i.e. `self.x.hypot(self.y)`; the square root forces
the value into `ℝ`. -/
noncomputable def magnitude (p : Pos) : ℝ :=
  Real.sqrt ((p.x : ℝ) ^ 2 + (p.y : ℝ) ^ 2)

end Pos

/-- Grayscale grid (`FloatImage` in `src/src/main.rs`): flat row-major
data with nominal width and height. -/
structure FloatImage where
  data : List ℚ
  width : Nat
  height : Nat
deriving DecidableEq, Repr

namespace FloatImage

/-- `FloatImage::get`: `self.data.get(y * self.width + x).copied()`.
Note the bounds check is on the flat index only. -/
def get (img : FloatImage) (x y : Nat) : Option ℚ :=
  img.data.get? (y * img.width + x)

/-- `FloatImage::lerp`. -/
def lerp (x y a : ℚ) : ℚ := x * (1 - a) + y * a

/-- `FloatImage::interp`: `(n.floor() as usize, n.ceil() as usize,
n - n.floor())`; the `as usize` cast saturates at zero for negative
values, which `Int.toNat` reproduces. -/
def interp (n : ℚ) : Nat × Nat × ℚ :=
  (⌊n⌋.toNat, ⌈n⌉.toNat, n - ⌊n⌋)

/-- `FloatImage::fget`: bilinear sample, each of the four integer reads
falling back to `0.0` via `unwrap_or` when `get` returns nothing. -/
def fget (img : FloatImage) (x y : ℚ) : ℚ :=
  let xi := interp x
  let yi := interp y
  let top_left := (img.get xi.1 yi.1).getD 0
  let top_right := (img.get xi.2.1 yi.1).getD 0
  let bottom_left := (img.get xi.1 yi.2.1).getD 0
  let bottom_right := (img.get xi.2.1 yi.2.1).getD 0
  lerp (lerp top_left top_right xi.2.2) (lerp bottom_left bottom_right xi.2.2) yi.2.2

end FloatImage

/-- Label grid of the tracer (`BinaryImage` in `src/src/contour.rs`),
carrying the point table and the `last_index` bookkeeping flag. -/
structure BinaryImage where
  points : List (Int × Pos)
  last_index : Int
  data : List Int
  width : Nat
  height : Nat
deriving DecidableEq, Repr

namespace BinaryImage

/-- `BinaryImage::new`: fresh point table, `last_index = 0`. -/
def new (pixels : List Int) (width height : Nat) : BinaryImage :=
  ⟨[], 0, pixels, width, height⟩

/-- `BinaryImage::index_of`: `None` whenever either coordinate leaves
`0..width`/`0..height`. -/
def index_of (img : BinaryImage) (x y : Int) : Option Nat :=
  if ¬(0 ≤ x ∧ x < (img.width : Int)) ∨ ¬(0 ≤ y ∧ y < (img.height : Int)) then
    none
  else
    some (y.toNat * img.width + x.toNat)

/-- `BinaryImage::get`: the labelled value, or `0` out of bounds.  (The
in-bounds branch indexes `self.data[index]`; the `getD` default is never
used when `data.length = width * height`.) -/
def get (img : BinaryImage) (x y : Int) : Int :=
  match img.index_of x y with
  | some index => img.data.getD index 0
  | none => 0

/-- `BinaryImage::put`: in bounds, store the label, append the
`(label, normalized position)` entry exactly when `last_index` equals the
written label, then update `last_index`; out of bounds, do nothing. -/
def put (img : BinaryImage) (x y : Int) (pixel : Int) : BinaryImage :=
  match img.index_of x y with
  | some index =>
      let pos := Pos.new ((x : ℚ) / (img.width : ℚ)) ((y : ℚ) / (img.height : ℚ))
      { img with
        data := img.data.set index pixel,
        points := if img.last_index = pixel then img.points ++ [(pixel, pos)] else img.points,
        last_index := pixel }
  | none => img

end BinaryImage

/-- Claimed reading of the spec for C2, stated for refutation: every
out-of-bounds integer read of `FloatImage::get` yields the background
(`none`, read as `0.0`) and never another cell's value. -/
def floatGetZeroPadded (img : FloatImage) : Prop :=
  ∀ x y : Nat, img.width ≤ x ∨ img.height ≤ y →
    img.get x y = none ∨ img.get x y = some 0

/-- C2, counterexample: on the 2x2 grid `[1,2,3,4]`, the out-of-range read
`get 2 0` (x past the width) does not yield background: it wraps to the
flat index 2 and returns cell `(0,1)`'s value `3`. -/
theorem C2_counterexample :
    let img : FloatImage := ⟨[1, 2, 3, 4], 2, 2⟩
    img.width ≤ 2 ∧ img.get 2 0 = some 3 ∧ img.get 0 1 = some 3 ∧
      img.get 2 0 ≠ some 0 ∧ ¬ floatGetZeroPadded img := by
  refine ⟨by decide, by decide, by decide, by decide, fun h => ?_⟩
  have := h 2 0 (Or.inl (by decide))
  revert this
  decide

/-- C2, amended: `BinaryImage::get` does return background `0` for every
out-of-bounds integer coordinate (negative included), and `FloatImage::get`
returns `none` (which its callers read as `0.0`) exactly when the flat
index `y * width + x` falls past the end of the data; an out-of-range `x`
whose flat index stays in range instead reads the row-wrapped cell. -/
theorem C2_amended :
    (∀ (img : BinaryImage) (x y : Int),
      (x < 0 ∨ (img.width : Int) ≤ x ∨ y < 0 ∨ (img.height : Int) ≤ y) →
        img.get x y = 0) ∧
    (∀ (img : FloatImage) (x y : Nat),
      img.get x y = none ↔ img.data.length ≤ y * img.width + x) := by
  constructor
  · intro img x y h
    rw [BinaryImage.get, BinaryImage.index_of]
    rw [if_pos]
    rcases h with h | h | h | h
    · exact Or.inl (fun hc => absurd h (not_lt.mpr hc.1))
    · exact Or.inl (fun hc => absurd hc.2 (not_lt.mpr h))
    · exact Or.inr (fun hc => absurd h (not_lt.mpr hc.1))
    · exact Or.inr (fun hc => absurd hc.2 (not_lt.mpr h))
  · intro img x y
    rw [FloatImage.get, List.get?_eq_getElem?]
    exact List.getElem?_eq_none_iff

/-- C2, amended, witness: the 1x1 binary grid `[7]` read at `(-1, 0)` and
at `(0, 1)` gives `0`, and on the 2x2 float grid the flat index 4 is the
first to read as `none`. -/
theorem C2_amended_witness :
    BinaryImage.get ⟨[], 0, [7], 1, 1⟩ (-1) 0 = 0 ∧
    BinaryImage.get ⟨[], 0, [7], 1, 1⟩ 0 1 = 0 ∧
    FloatImage.get ⟨[1, 2, 3, 4], 2, 2⟩ 0 2 = none :=
  ⟨C2_amended.1 ⟨[], 0, [7], 1, 1⟩ (-1) 0 (Or.inl (by decide)),
   C2_amended.1 ⟨[], 0, [7], 1, 1⟩ 0 1 (Or.inr (Or.inr (Or.inr (by decide)))),
   (C2_amended.2 ⟨[1, 2, 3, 4], 2, 2⟩ 0 2).mpr (by decide)⟩

/-- One output cell of `filter_image` (`src/src/main.rs`): the double loop
over kernel coordinates accumulating `sum` and `scale`, skipping window
cells outside the grid, then dividing by `scale` in average mode. -/
def filterCell (img : FloatImage) (S : Nat) (kernel : List ℚ) (average : Bool)
    (x y : Nat) : ℚ :=
  let half : Int := (S / 2 : Nat)
  let acc := ((List.range S).flatMap (fun ky => (List.range S).map (fun kx => (ky, kx)))).foldl
    (fun acc p =>
      let xi : Int := (x : Int) + (p.2 : Int) - half
      let yi : Int := (y : Int) + (p.1 : Int) - half
      if xi < 0 ∨ (img.width : Int) ≤ xi ∨ yi < 0 ∨ (img.height : Int) ≤ yi then acc
      else
        let kernel_value := kernel.getD (p.1 * S + p.2) 0
        (acc.1 + (img.get xi.toNat yi.toNat).getD 0 * kernel_value, acc.2 + kernel_value))
    (0, 0)
  if average then acc.1 / acc.2 else acc.1

/-- `filter_image` from `src/src/main.rs`: `none` models the
`kernel size doesnt match` panic; otherwise the output image is pushed
row-major, cell by cell. -/
def filter_image (S : Nat) (img : FloatImage) (kernel : List ℚ) (average : Bool) :
    Option FloatImage :=
  if S * S ≠ kernel.length then none
  else some
    ⟨(List.range img.height).flatMap
        (fun y => (List.range img.width).map (fun x => filterCell img S kernel average x y)),
      img.width, img.height⟩

/-- Zero-padded read of a grid at signed coordinates, used to state the
convolution specification. -/
def zeroPad (img : FloatImage) (x y : Int) : ℚ :=
  if 0 ≤ x ∧ x < (img.width : Int) ∧ 0 ≤ y ∧ y < (img.height : Int) then
    (img.get x.toNat y.toNat).getD 0
  else 0

/-- Numerator of the convolution at a cell, as the spec states it: the sum
of kernel_value times grid_value over the `S`x`S` window centered on the
cell, out-of-bounds window cells contributing zero. -/
def convNum (img : FloatImage) (S m : Nat) (kernel : List ℚ) (x y : Nat) : ℚ :=
  ((List.range S).map (fun (j : Nat) =>
    ((List.range S).map (fun (i : Nat) =>
      zeroPad img ((x : Int) + (i : Int) - (m : Int)) ((y : Int) + (j : Int) - (m : Int)) *
        kernel.getD (j * S + i) 0)).sum)).sum

/-- Divisor of the convolution in average mode, as the spec states it: the
sum of only those kernel weights whose window cell lies inside the grid
(exclusion, not zero-padding). -/
def convDen (img : FloatImage) (S m : Nat) (kernel : List ℚ) (x y : Nat) : ℚ :=
  ((List.range S).map (fun (j : Nat) =>
    ((List.range S).map (fun (i : Nat) =>
      if 0 ≤ (x : Int) + (i : Int) - (m : Int) ∧
          (x : Int) + (i : Int) - (m : Int) < (img.width : Int) ∧
          0 ≤ (y : Int) + (j : Int) - (m : Int) ∧
          (y : Int) + (j : Int) - (m : Int) < (img.height : Int) then
        kernel.getD (j * S + i) 0
      else 0)).sum)).sum

/-- Rows of equal width concatenated by `flatMap` are indexed row-major. -/
theorem flatMap_get_row {α : Type} (ys : List Nat) (f : Nat → List α) (W : Nat)
    (hW : ∀ y ∈ ys, (f y).length = W) (r x : Nat) (hr : r < ys.length) (hx : x < W) :
    (ys.flatMap f).get? (r * W + x) = (f (ys.getD r 0)).get? x := by
  induction ys generalizing r with
  | nil => simp at hr
  | cons y0 rest ih =>
    have h0 : (f y0).length = W := hW y0 (by simp)
    cases r with
    | zero =>
      simp only [List.flatMap_cons, Nat.zero_mul, Nat.zero_add, List.getD_cons_zero]
      rw [List.get?_eq_getElem?, List.getElem?_append_left (by omega), ← List.get?_eq_getElem?]
    | succ r =>
      have hr' : r < rest.length := by simpa using hr
      have hmul : r.succ * W = r * W + W := Nat.succ_mul r W
      simp only [List.flatMap_cons, List.getD_cons_succ]
      rw [List.get?_eq_getElem?,
        List.getElem?_append_right (by omega : (f y0).length ≤ r.succ * W + x)]
      have harith : r.succ * W + x - (f y0).length = r * W + x := by omega
      rw [harith, ← List.get?_eq_getElem?]
      exact ih (fun y hy => hW y (by simp [hy])) r hr'

/-- Length of a row-major `flatMap` of equal-width rows. -/
theorem flatMap_length_row {α : Type} (ys : List Nat) (f : Nat → List α) (W : Nat)
    (hW : ∀ y ∈ ys, (f y).length = W) : (ys.flatMap f).length = ys.length * W := by
  induction ys with
  | nil => simp
  | cons y0 rest ih =>
    simp only [List.flatMap_cons, List.length_append, List.length_cons]
    rw [hW y0 (by simp), ih (fun y hy => hW y (by simp [hy])), Nat.succ_mul, Nat.add_comm]

/-- Folding a pair of guarded accumulators is the pair of the sums. -/
theorem foldl_pair_sum {β : Type} (l : List β) (g h : β → ℚ) (a b : ℚ) :
    l.foldl (fun acc p => (acc.1 + g p, acc.2 + h p)) (a, b) =
      (a + (l.map g).sum, b + (l.map h).sum) := by
  induction l generalizing a b with
  | nil => simp
  | cons p rest ih => simp [ih]; constructor <;> ring

/-- Folding a guarded pair of accumulators is the pair of guarded sums. -/
theorem foldl_pair_sum_guard {β : Type} (l : List β) (C : β → Prop) [DecidablePred C]
    (g h : β → ℚ) (a b : ℚ) :
    l.foldl (fun acc p => if C p then acc else (acc.1 + g p, acc.2 + h p)) (a, b) =
      (a + (l.map fun p => if C p then 0 else g p).sum,
       b + (l.map fun p => if C p then 0 else h p).sum) := by
  induction l generalizing a b with
  | nil => simp
  | cons p rest ih =>
    by_cases hc : C p
    · simp [hc, ih]
    · simp [hc, ih, add_assoc]

/-- Summing a mapped `flatMap` row by row. -/
theorem sum_map_flatMap {α β : Type} (l : List α) (f : α → List β) (g : β → ℚ) :
    ((l.flatMap f).map g).sum = (l.map (fun a => ((f a).map g).sum)).sum := by
  induction l with
  | nil => simp
  | cons a rest ih => simp [List.flatMap_cons, ih]

/-- Each cell computed by `filter_image`'s kernel loop is the zero-padded
window sum, divided in average mode by the sum of the in-bounds kernel
weights only. -/
theorem filterCell_eq (img : FloatImage) (S m : Nat) (kernel : List ℚ) (average : Bool)
    (x y : Nat) (hS : S = 2 * m + 1) :
    filterCell img S kernel average x y =
      if average then convNum img S m kernel x y / convDen img S m kernel x y
      else convNum img S m kernel x y := by
  have hhalf : ((S / 2 : Nat) : Int) = (m : Int) := by omega
  rw [filterCell]
  simp only [hhalf]
  rw [foldl_pair_sum_guard _
    (fun p : Nat × Nat => (x : Int) + (p.2 : Int) - (m : Int) < 0 ∨
      (img.width : Int) ≤ (x : Int) + (p.2 : Int) - (m : Int) ∨
      (y : Int) + (p.1 : Int) - (m : Int) < 0 ∨
      (img.height : Int) ≤ (y : Int) + (p.1 : Int) - (m : Int))
    (fun p : Nat × Nat =>
      (img.get ((x : Int) + (p.2 : Int) - (m : Int)).toNat
          ((y : Int) + (p.1 : Int) - (m : Int)).toNat).getD 0 * kernel.getD (p.1 * S + p.2) 0)
    (fun p : Nat × Nat => kernel.getD (p.1 * S + p.2) 0)]
  have hnum : (((List.range S).flatMap
        (fun ky => (List.range S).map (fun kx => (ky, kx)))).map
          (fun p : Nat × Nat =>
            if (x : Int) + (p.2 : Int) - (m : Int) < 0 ∨
                (img.width : Int) ≤ (x : Int) + (p.2 : Int) - (m : Int) ∨
                (y : Int) + (p.1 : Int) - (m : Int) < 0 ∨
                (img.height : Int) ≤ (y : Int) + (p.1 : Int) - (m : Int) then 0
            else
              (img.get ((x : Int) + (p.2 : Int) - (m : Int)).toNat
                  ((y : Int) + (p.1 : Int) - (m : Int)).toNat).getD 0 *
                kernel.getD (p.1 * S + p.2) 0)).sum = convNum img S m kernel x y := by
    rw [sum_map_flatMap, convNum]
    refine congrArg List.sum (List.map_congr_left fun j hj => ?_)
    simp only [List.map_map]
    refine congrArg List.sum (List.map_congr_left fun i hi => ?_)
    simp only [Function.comp]
    rw [zeroPad]
    by_cases hb : 0 ≤ (x : Int) + (i : Int) - (m : Int) ∧
        (x : Int) + (i : Int) - (m : Int) < (img.width : Int) ∧
        0 ≤ (y : Int) + (j : Int) - (m : Int) ∧
        (y : Int) + (j : Int) - (m : Int) < (img.height : Int)
    · rw [if_pos hb, if_neg (by push_neg; omega)]
    · rw [if_neg hb, if_pos (by push_neg at hb; omega), zero_mul]
  have hden : (((List.range S).flatMap
        (fun ky => (List.range S).map (fun kx => (ky, kx)))).map
          (fun p : Nat × Nat =>
            if (x : Int) + (p.2 : Int) - (m : Int) < 0 ∨
                (img.width : Int) ≤ (x : Int) + (p.2 : Int) - (m : Int) ∨
                (y : Int) + (p.1 : Int) - (m : Int) < 0 ∨
                (img.height : Int) ≤ (y : Int) + (p.1 : Int) - (m : Int) then 0
            else kernel.getD (p.1 * S + p.2) 0)).sum = convDen img S m kernel x y := by
    rw [sum_map_flatMap, convDen]
    refine congrArg List.sum (List.map_congr_left fun j hj => ?_)
    simp only [List.map_map]
    refine congrArg List.sum (List.map_congr_left fun i hi => ?_)
    simp only [Function.comp]
    by_cases hb : 0 ≤ (x : Int) + (i : Int) - (m : Int) ∧
        (x : Int) + (i : Int) - (m : Int) < (img.width : Int) ∧
        0 ≤ (y : Int) + (j : Int) - (m : Int) ∧
        (y : Int) + (j : Int) - (m : Int) < (img.height : Int)
    · rw [if_pos hb, if_neg (by push_neg; omega)]
    · rw [if_neg hb, if_pos (by push_neg at hb; omega)]
  rw [hnum, hden]
  simp

/-- C6: under a matching kernel length and odd `S = 2*m+1`, `filter_image`
succeeds, keeps the input's width and height, and each in-bounds output
cell is the zero-padded window sum of kernel times grid, divided in
average mode by the sum of only the in-bounds kernel weights. -/
theorem C6_filter_image (img : FloatImage) (S m : Nat) (kernel : List ℚ) (average : Bool)
    (x y : Nat) (hk : kernel.length = S * S) (hS : S = 2 * m + 1)
    (hx : x < img.width) (hy : y < img.height)
    (hd : img.data.length = img.width * img.height) :
    ∃ out, filter_image S img kernel average = some out ∧
      out.width = img.width ∧ out.height = img.height ∧
      out.data.length = img.width * img.height ∧
      out.get x y =
        some (if average then convNum img S m kernel x y / convDen img S m kernel x y
          else convNum img S m kernel x y) := by
  rw [filter_image, if_neg (fun hcon => hcon hk.symm)]
  refine ⟨_, rfl, rfl, rfl, ?_, ?_⟩
  · rw [flatMap_length_row _ _ img.width (fun yy _ => by simp)]
    simp [Nat.mul_comm]
  · rw [FloatImage.get]
    show ((List.range img.height).flatMap
      (fun yy => (List.range img.width).map
        (fun xx => filterCell img S kernel average xx yy))).get? (y * img.width + x) = _
    rw [flatMap_get_row _ _ img.width (fun yy _ => by simp) y x (by simpa using hy) hx]
    have hgetd : (List.range img.height).getD y 0 = y := by
      rw [List.getD_eq_getElem?_getD, List.getElem?_range hy]
      rfl
    rw [hgetd, List.get?_eq_getElem?, List.getElem?_map, List.getElem?_range hx]
    rw [show Option.map (fun xx => filterCell img S kernel average xx y) (some x) =
      some (filterCell img S kernel average x y) from rfl]
    rw [filterCell_eq img S m kernel average x y hS]

/-- C6, witness: a 1x1 averaging kernel `[2]` on the 2x2 grid. -/
theorem C6_filter_image_witness :
    ∃ out, filter_image 1 ⟨[1, 2, 3, 4], 2, 2⟩ [2] true = some out ∧
      out.width = 2 ∧ out.height = 2 ∧ out.data.length = 2 * 2 ∧
      out.get 0 0 =
        some (convNum ⟨[1, 2, 3, 4], 2, 2⟩ 1 0 [2] 0 0 /
          convDen ⟨[1, 2, 3, 4], 2, 2⟩ 1 0 [2] 0 0) :=
  C6_filter_image ⟨[1, 2, 3, 4], 2, 2⟩ 1 0 [2] true 0 0
    (by decide) (by decide) (by decide) (by decide) (by decide)

/-- Modelled from the spec: the binarization step of the three-argument
`contours(image, threshold, epsilon)` invoked from `src/src/main.rs` line
355, which is not in the snapshot; the snapshot's two-argument `contours`
(`src/src/contour.rs` line 196) hard-codes `(*pixel > 0.5) as i32`, so the
configured `threshold` of the spec replaces the `0.5` literal while the
strict comparison and the 1/0 labels follow that code. -/
def contoursBinary (image : FloatImage) (threshold : ℚ) : BinaryImage :=
  BinaryImage.new (image.data.map (fun pixel => if pixel > threshold then 1 else 0))
    image.width image.height

/-- C3: binarization maps an in-bounds cell to 1 exactly when its value
strictly exceeds the configured threshold, and to 0 otherwise; exact
equality with the threshold gives background 0. -/
theorem C3_binarize (image : FloatImage) (threshold : ℚ) (x y : Nat)
    (hx : x < image.width) (hy : y < image.height)
    (hd : image.data.length = image.width * image.height) :
    ((contoursBinary image threshold).get x y =
        if image.data.getD (y * image.width + x) 0 > threshold then 1 else 0) ∧
    ((contoursBinary image threshold).get x y = 1 ↔
        image.data.getD (y * image.width + x) 0 > threshold) ∧
    (image.data.getD (y * image.width + x) 0 = threshold →
        (contoursBinary image threshold).get x y = 0) := by
  have hidx : y * image.width + x < image.data.length := by
    rw [hd]
    have hmul : y.succ * image.width = y * image.width + image.width := Nat.succ_mul _ _
    have hle : y.succ * image.width ≤ image.height * image.width :=
      Nat.mul_le_mul_right _ hy
    have hcomm : image.width * image.height = image.height * image.width := Nat.mul_comm _ _
    omega
  have hwid : (contoursBinary image threshold).width = image.width := rfl
  have hhei : (contoursBinary image threshold).height = image.height := rfl
  have hio : (contoursBinary image threshold).index_of (x : Int) (y : Int) =
      some (y * image.width + x) := by
    rw [BinaryImage.index_of, hwid, hhei]
    rw [if_neg (by push_neg; refine ⟨⟨?_, ?_⟩, ?_, ?_⟩ <;> omega)]
    simp
  have hval : (contoursBinary image threshold).get x y =
      if image.data.getD (y * image.width + x) 0 > threshold then 1 else 0 := by
    rw [BinaryImage.get, hio]
    show (contoursBinary image threshold).data.getD (y * image.width + x) 0 = _
    show (image.data.map fun pixel => if pixel > threshold then 1 else 0).getD
      (y * image.width + x) 0 = _
    rw [List.getD_eq_getElem?_getD, List.getElem?_map, List.getD_eq_getElem?_getD,
      List.getElem?_eq_getElem hidx]
    simp
  refine ⟨hval, ?_, ?_⟩
  · rw [hval]
    by_cases hgt : image.data.getD (y * image.width + x) 0 > threshold
    · simp [hgt]
    · simp [hgt]
  · intro heq
    rw [hval, if_neg]
    rw [heq]
    exact lt_irrefl _

/-- C3, witness: on the 1-row grid `[1, 0]` with threshold `1/2`, the cell
holding `1` binarizes to `1`, strictly above the cutoff. -/
theorem C3_binarize_witness :
    ((contoursBinary ⟨[1, 0], 2, 1⟩ (1/2)).get 0 0 =
        if (1 : ℚ) > 1/2 then 1 else 0) ∧
    ((contoursBinary ⟨[1, 0], 2, 1⟩ (1/2)).get 0 0 = 1 ↔ (1 : ℚ) > 1/2) ∧
    ((1 : ℚ) = 1/2 → (contoursBinary ⟨[1, 0], 2, 1⟩ (1/2)).get 0 0 = 0) :=
  C3_binarize ⟨[1, 0], 2, 1⟩ (1/2) 0 0 (by decide) (by decide) (by decide)

/-- `Neighbors::new().values` from `src/src/contour.rs`: the eight offsets
in the fixed cyclic order west, northwest, north, northeast, east,
southeast, south, southwest. -/
def neighborValues : List (Int × Int) :=
  [(-1, 0), (-1, -1), (0, -1), (1, -1), (1, 0), (1, 1), (0, 1), (-1, 1)]

/-- `Neighbors::get`: `self.values[index % 8]`. -/
def neighborsGet (index : Nat) : Int × Int :=
  neighborValues.getD (index % 8) (0, 0)

/-- `Neighbors::lookup` with its fixed 3x3 table; the Rust `as usize`
casts stay in range for every direction the tracer ever produces, and the
`getD` defaults model the otherwise panicking out-of-range index. -/
def neighborsLookup (values : Int × Int) : Nat :=
  let TABLE : List (List Nat) := [[1, 0, 7], [2, 8, 6], [3, 4, 5]]
  (TABLE.getD (values.1 + 1).toNat []).getD (values.2 + 1).toNat 0

/-- `contour_trace3`: from the arrival direction `start - follow`, scan the
eight neighbors of the follow cell counter-clockwise — the Rust iterator
`(start_index..start_index + 8).rev().skip(1)` is the index list
`[start_index + 6, ..., start_index]` — and return the first offset whose
cell is nonzero. -/
def contour_trace3 (image : BinaryImage) (start_pixel follow_pixel : Int × Int)
    (x y : Int) : Option (Int × Int) :=
  let direction := (start_pixel.1 - follow_pixel.1, start_pixel.2 - follow_pixel.2)
  let start_index := neighborsLookup direction
  ((List.range' start_index 8).reverse.drop 1).findSome? (fun neighbor_index =>
    let neighbor := neighborsGet neighbor_index
    let pos := (follow_pixel.1 + neighbor.1, follow_pixel.2 + neighbor.2)
    if image.get (x + pos.1) (y + pos.2) ≠ 0 then some pos else none)

/-- `contour_trace4`: relabel the follow cell, `-nbd` when its east
neighbor is background, `+nbd` when it is still an unvisited `1`. -/
def contour_trace4 (image : BinaryImage) (follow_pixel : Int × Int)
    (x y nbd : Int) : BinaryImage :=
  let xf := x + follow_pixel.1
  let yf := y + follow_pixel.2
  let right_pixel := image.get (xf + 1) yf
  if right_pixel = 0 then image.put xf yf (-nbd)
  else if image.get xf yf = 1 then image.put xf yf nbd
  else image

/-- `contour_trace5`: `none` models the `false` return (stop: the found
offset is the `(0,0)` sentinel and the follow position is the very first
found neighbor); otherwise the shifted `(start, follow)` pair. -/
def contour_trace5 (found_pixel follow_pixel start_pixel found_neighbor : Int × Int) :
    Option ((Int × Int) × (Int × Int)) :=
  if found_pixel = (0, 0) ∧ follow_pixel = found_neighbor then none
  else some (follow_pixel, found_pixel)

/-- Follow loop of `contour_trace` (`while let Some(found) = ...`), with
fuel: `none` means the fuel ran out before the loop stopped. -/
def contourTraceLoop (x y nbd : Int) (found_neighbor : Int × Int) :
    Nat → BinaryImage → (Int × Int) → (Int × Int) → Option BinaryImage
  | 0, _, _, _ => none
  | fuel + 1, image, start_pixel, follow_pixel =>
    match contour_trace3 image start_pixel follow_pixel x y with
    | none => some image
    | some found =>
      let image' := contour_trace4 image follow_pixel x y nbd
      match contour_trace5 found follow_pixel start_pixel found_neighbor with
      | none => some image'
      | some sf => contourTraceLoop x y nbd found_neighbor fuel image' sf.1 sf.2

/-- `contour_trace` from `src/src/contour.rs`: find the first nonzero
neighbor of the seed in cyclic order; if there is one, enter the follow
loop from the seed; otherwise relabel the isolated seed `-nbd`, run the
relabelling step and the shift test once (the test always stops there),
mirroring the Rust control flow. -/
def contour_trace (fuel : Nat) (image : BinaryImage) (x y nbd : Int) :
    Option BinaryImage :=
  let found_neighbor := (neighborValues.findSome? (fun neighbor =>
    if image.get (x + neighbor.1) (y + neighbor.2) ≠ 0 then some neighbor else none)).getD
    (0, 0)
  if found_neighbor ≠ (0, 0) then
    contourTraceLoop x y nbd found_neighbor fuel image found_neighbor (0, 0)
  else
    let image1 := (image.put x y (-nbd))
    let image2 := contour_trace4 image1 (0, 0) x y nbd
    match contour_trace5 (0, 0) (0, 0) (-1, 0) found_neighbor with
    | none => some image2
    | some sf => contourTraceLoop x y nbd found_neighbor fuel image2 sf.1 sf.2

/-- Wrapper for the fuelled `contour_trace` with the Rust (non-optional)
shape: if the fuel runs out the image is returned unchanged.  Used to
instantiate the scan, whose claims are proved for every trace routine. -/
def traceFueled (fuel : Nat) (image : BinaryImage) (x y nbd : Int) : BinaryImage :=
  (contour_trace fuel image x y nbd).getD image

/-- Result of one body iteration of the row-major scan in `contours`. -/
structure ScanStep where
  image : BinaryImage
  nbd : Int
  lnbd : Int
  fired : Bool
deriving Repr

/-- One body iteration of the scan loop of `contours`
(`src/src/contour.rs` lines 212-237): update `lnbd` from an
already-labelled pixel, test the outer-border condition, and either invoke
the trace routine with the incremented `nbd` (reported via `fired`) or
propagate `lnbd`.  The `trace` parameter abstracts `contour_trace`. -/
def scanCell (trace : BinaryImage → Int → Int → Int → BinaryImage)
    (image : BinaryImage) (nbd lnbd x y : Int) : ScanStep :=
  let current_pixel := image.get x y
  let lnbd1 := if ¬(0 ≤ current_pixel ∧ current_pixel ≤ 1) then current_pixel else lnbd
  let is_outer := (0 < x ∧ image.get (x - 1) y = 0) ∧ current_pixel = 1
  if is_outer ∧ lnbd1 ≤ 0 then
    let image' := trace image x y (nbd + 1)
    ⟨image', nbd + 1, if image'.get x y ≠ 1 then image'.get x y else lnbd1, true⟩
  else if current_pixel ≠ 1 then ⟨image, nbd, current_pixel, false⟩
  else ⟨image, nbd, lnbd1, false⟩

/-- State threaded through the scan of `contours`; `ids` records, in
discovery order, the border id handed to each invoked trace. -/
structure ScanState where
  image : BinaryImage
  nbd : Int
  lnbd : Int
  ids : List Int
deriving Repr

/-- Inner (`x`) loop of the `contours` scan over one row. -/
def scanRow (trace : BinaryImage → Int → Int → Int → BinaryImage)
    (y : Int) (width : Nat) (st : ScanState) : ScanState :=
  (List.range width).foldl (fun (st : ScanState) (xn : Nat) =>
    let r := scanCell trace st.image st.nbd st.lnbd (xn : Int) y
    ⟨r.image, r.nbd, r.lnbd, if r.fired then st.ids ++ [r.nbd] else st.ids⟩) st

/-- Outer (`y`) loop of the `contours` scan: `nbd` starts at 1 and `lnbd`
is reset to 0 at every row start. -/
def scanBorders (trace : BinaryImage → Int → Int → Int → BinaryImage)
    (image : BinaryImage) : ScanState :=
  (List.range image.height).foldl (fun (st : ScanState) (yn : Nat) =>
    scanRow trace (yn : Int) image.width ⟨st.image, st.nbd, 0, st.ids⟩)
    ⟨image, 1, 0, []⟩

/-- Start condition exactly as C4 words it, stated for refutation: label
exactly 1, the left neighbor background whenever it is in bounds (an
out-of-bounds left neighbor not blocking the start), and `lnbd ≤ 0`. -/
def claimedOuterStart (image : BinaryImage) (x y lnbd : Int) : Prop :=
  image.get x y = 1 ∧
  (image.index_of (x - 1) y ≠ none → image.get (x - 1) y = 0) ∧
  lnbd ≤ 0

/-- C4, counterexample: on the 1x1 grid holding a single foreground pixel,
the cell `(0,0)` satisfies the claimed start condition (its left neighbor
is out of bounds), yet the scan body does not start a border there: the
code requires `x > 0`, so the leftmost column can never seed one. -/
theorem C4_counterexample :
    claimedOuterStart (BinaryImage.new [1] 1 1) 0 0 0 ∧
    (scanCell (traceFueled 100) (BinaryImage.new [1] 1 1) 1 0 0 0).fired = false ∧
    (scanBorders (traceFueled 100) (BinaryImage.new [1] 1 1)).ids = [] := by
  refine ⟨⟨by decide, fun h => absurd rfl h, by decide⟩, by decide, by decide⟩

/-- C4, amended: the scan body fires a trace at a cell exactly when its
label is 1, its left neighbor exists (`x > 0`) and is background 0, and
`lnbd ≤ 0`; a foreground cell in the leftmost column never seeds a
border. -/
theorem C4_outer_start (trace : BinaryImage → Int → Int → Int → BinaryImage)
    (image : BinaryImage) (nbd lnbd x y : Int) :
    (scanCell trace image nbd lnbd x y).fired = true ↔
      (image.get x y = 1 ∧ 0 < x ∧ image.get (x - 1) y = 0 ∧ lnbd ≤ 0) := by
  simp only [scanCell]
  by_cases hcur : image.get x y = 1
  · rw [hcur]
    rw [if_neg (show ¬¬((0 : Int) ≤ 1 ∧ (1 : Int) ≤ 1) by decide)]
    split_ifs with hc hc2 hneq
    · exact ⟨fun _ => ⟨rfl, hc.1.1.1, hc.1.1.2, hc.2⟩, fun _ => rfl⟩
    · exact ⟨fun _ => ⟨rfl, hc.1.1.1, hc.1.1.2, hc.2⟩, fun _ => rfl⟩
    · exact absurd rfl hneq
    · rw [false_iff]
      rintro ⟨_, hx, hleft, hln⟩
      exact hc ⟨⟨⟨hx, hleft⟩, rfl⟩, hln⟩
  · rw [if_neg (fun hcon => hcur hcon.1.2), if_pos hcur]
    constructor
    · intro h
      exact Bool.noConfusion h
    · rintro ⟨hc1, _, _, _⟩
      exact absurd hc1 hcur

/-- Bookkeeping invariant of the scan: `nbd` is one more than the number
of minted ids, and the minted ids are `2, 3, 4, ...` in order. -/
def idsInv (nbd : Int) (ids : List Int) : Prop :=
  nbd = 1 + ids.length ∧
  ids = (List.range ids.length).map (fun (i : Nat) => (2 : Int) + (i : Int))

/-- A scan-body iteration either fires with `nbd + 1` or keeps `nbd`. -/
theorem scanCell_nbd_cases (trace : BinaryImage → Int → Int → Int → BinaryImage)
    (image : BinaryImage) (nbd lnbd x y : Int) :
    ((scanCell trace image nbd lnbd x y).fired = true ∧
      (scanCell trace image nbd lnbd x y).nbd = nbd + 1) ∨
    ((scanCell trace image nbd lnbd x y).fired = false ∧
      (scanCell trace image nbd lnbd x y).nbd = nbd) := by
  simp only [scanCell]
  split_ifs <;> simp

/-- One scan-body iteration preserves the ids invariant. -/
theorem scanStep_idsInv (trace : BinaryImage → Int → Int → Int → BinaryImage)
    (st : ScanState) (xn : Nat) (y : Int) (h : idsInv st.nbd st.ids) :
    idsInv (scanCell trace st.image st.nbd st.lnbd (xn : Int) y).nbd
      (if (scanCell trace st.image st.nbd st.lnbd (xn : Int) y).fired then
        st.ids ++ [(scanCell trace st.image st.nbd st.lnbd (xn : Int) y).nbd]
      else st.ids) := by
  obtain ⟨hn, hids⟩ := h
  rcases scanCell_nbd_cases trace st.image st.nbd st.lnbd (xn : Int) y with
    ⟨hf, hnbd⟩ | ⟨hf, hnbd⟩
  · rw [hf, if_pos rfl, hnbd]
    constructor
    · rw [List.length_append, List.length_cons, List.length_nil, hn]
      push_cast
      ring
    · rw [List.length_append, List.length_cons, List.length_nil]
      rw [List.range_succ, List.map_append, ← hids]
      congr 1
      rw [List.map_singleton]
      congr 1
      rw [hn]
      push_cast
      ring
  · rw [hf, if_neg (by decide), hnbd]
    exact ⟨hn, hids⟩

/-- The row fold of the scan preserves the ids invariant. -/
theorem scanFold_idsInv (trace : BinaryImage → Int → Int → Int → BinaryImage)
    (y : Int) (l : List Nat) :
    ∀ st : ScanState, idsInv st.nbd st.ids →
      idsInv ((l.foldl (fun (st : ScanState) (xn : Nat) =>
          let r := scanCell trace st.image st.nbd st.lnbd (xn : Int) y
          ⟨r.image, r.nbd, r.lnbd, if r.fired then st.ids ++ [r.nbd] else st.ids⟩) st).nbd)
        ((l.foldl (fun (st : ScanState) (xn : Nat) =>
          let r := scanCell trace st.image st.nbd st.lnbd (xn : Int) y
          ⟨r.image, r.nbd, r.lnbd, if r.fired then st.ids ++ [r.nbd] else st.ids⟩) st).ids) := by
  induction l with
  | nil => exact fun st h => h
  | cons x0 rest ih =>
    intro st h
    rw [List.foldl_cons]
    exact ih _ (scanStep_idsInv trace st x0 y h)

/-- `scanRow` preserves the ids invariant. -/
theorem scanRow_idsInv (trace : BinaryImage → Int → Int → Int → BinaryImage)
    (y : Int) (width : Nat) (st : ScanState) (h : idsInv st.nbd st.ids) :
    idsInv (scanRow trace y width st).nbd (scanRow trace y width st).ids :=
  scanFold_idsInv trace y (List.range width) st h

/-- The whole scan establishes the ids invariant. -/
theorem scanBorders_idsInv (trace : BinaryImage → Int → Int → Int → BinaryImage)
    (image : BinaryImage) :
    idsInv (scanBorders trace image).nbd (scanBorders trace image).ids := by
  rw [scanBorders]
  have main : ∀ (rows : List Nat) (st : ScanState), idsInv st.nbd st.ids →
      idsInv ((rows.foldl (fun (st : ScanState) (yn : Nat) =>
          scanRow trace (yn : Int) image.width ⟨st.image, st.nbd, 0, st.ids⟩) st).nbd)
        ((rows.foldl (fun (st : ScanState) (yn : Nat) =>
          scanRow trace (yn : Int) image.width ⟨st.image, st.nbd, 0, st.ids⟩) st).ids) := by
    intro rows
    induction rows with
    | nil => exact fun _ h => h
    | cons r rest ih =>
      intro st h
      rw [List.foldl_cons]
      exact ih _ (scanRow_idsInv trace (r : Int) image.width ⟨st.image, st.nbd, 0, st.ids⟩ h)
  exact main (List.range image.height) ⟨image, 1, 0, []⟩ ⟨by simp, by simp⟩

/-- C7: whatever the trace routine does to the image, the border ids the
scan mints are `2, 3, 4, ...` in row-major discovery order — consecutive
from 2 (since `nbd` starts at 1 and is incremented before each use), hence
strictly increasing, with first element 2. -/
theorem C7_border_ids (trace : BinaryImage → Int → Int → Int → BinaryImage)
    (image : BinaryImage) :
    (scanBorders trace image).ids =
      (List.range (scanBorders trace image).ids.length).map
        (fun (i : Nat) => (2 : Int) + (i : Int)) ∧
    (scanBorders trace image).ids.Pairwise (· < ·) ∧
    ((scanBorders trace image).ids = [] ∨
      (scanBorders trace image).ids.head? = some 2) := by
  obtain ⟨hn, hids⟩ := scanBorders_idsInv trace image
  refine ⟨hids, ?_, ?_⟩
  · rw [hids]
    exact (List.pairwise_lt_range _).map _ (fun a b hab => by omega)
  · rcases hcase : (scanBorders trace image).ids with _ | ⟨a, tl⟩
    · exact Or.inl rfl
    · right
      rw [hcase] at hids
      rw [show (a :: tl).length = tl.length + 1 from rfl, List.range_succ_eq_map,
        List.map_cons] at hids
      injection hids with h1 _
      rw [List.head?_cons, h1]
      norm_num

/-- `index_of` reads only the dimensions. -/
theorem index_of_congr (im1 im2 : BinaryImage) (hw : im1.width = im2.width)
    (hh : im1.height = im2.height) (x y : Int) :
    im1.index_of x y = im2.index_of x y := by
  rw [BinaryImage.index_of, BinaryImage.index_of, hw, hh]

/-- `get` reads only the data and the dimensions. -/
theorem get_congr (im1 im2 : BinaryImage) (hd : im1.data = im2.data)
    (hw : im1.width = im2.width) (hh : im1.height = im2.height) (x y : Int) :
    im1.get x y = im2.get x y := by
  rw [BinaryImage.get, BinaryImage.get, index_of_congr im1 im2 hw hh, hd]

/-- The data, flag and dimension fields written by `put` depend only on
the data, flag and dimension fields (the point table is write-only). -/
theorem put_fields_congr (im1 im2 : BinaryImage) (hd : im1.data = im2.data)
    (hli : im1.last_index = im2.last_index) (hw : im1.width = im2.width)
    (hh : im1.height = im2.height) (x y p : Int) :
    (im1.put x y p).data = (im2.put x y p).data ∧
    (im1.put x y p).last_index = (im2.put x y p).last_index ∧
    (im1.put x y p).width = im2.width ∧
    (im1.put x y p).height = im2.height := by
  rw [BinaryImage.put, BinaryImage.put, index_of_congr im1 im2 hw hh]
  rcases hio : im2.index_of x y with _ | i
  · exact ⟨hd, hli, hw, hh⟩
  · exact ⟨(by rw [hd] : im1.data.set i p = im2.data.set i p), rfl, hw, hh⟩

/-- `contour_trace3` reads only the data and the dimensions. -/
theorem trace3_congr (im1 im2 : BinaryImage) (hd : im1.data = im2.data)
    (hw : im1.width = im2.width) (hh : im1.height = im2.height)
    (s f : Int × Int) (x y : Int) :
    contour_trace3 im1 s f x y = contour_trace3 im2 s f x y := by
  rw [contour_trace3, contour_trace3]
  simp only [get_congr im1 im2 hd hw hh]

/-- The data, flag and dimension fields after `contour_trace4` depend only
on the data, flag and dimension fields. -/
theorem trace4_fields_congr (im1 im2 : BinaryImage) (hd : im1.data = im2.data)
    (hli : im1.last_index = im2.last_index) (hw : im1.width = im2.width)
    (hh : im1.height = im2.height) (f : Int × Int) (x y nbd : Int) :
    (contour_trace4 im1 f x y nbd).data = (contour_trace4 im2 f x y nbd).data ∧
    (contour_trace4 im1 f x y nbd).last_index = (contour_trace4 im2 f x y nbd).last_index ∧
    (contour_trace4 im1 f x y nbd).width = im2.width ∧
    (contour_trace4 im1 f x y nbd).height = im2.height := by
  rw [contour_trace4, contour_trace4]
  simp only [get_congr im1 im2 hd hw hh]
  split_ifs
  · exact put_fields_congr im1 im2 hd hli hw hh _ _ _
  · exact put_fields_congr im1 im2 hd hli hw hh _ _ _
  · exact ⟨hd, hli, hw, hh⟩

/-- Unfolding one continuing iteration of the follow loop. -/
theorem contourTraceLoop_step (x y nbd : Int) (fn : Int × Int) (fuel : Nat)
    (img : BinaryImage) (s f found s2 f2 : Int × Int)
    (h3 : contour_trace3 img s f x y = some found)
    (h5 : contour_trace5 found f s fn = some (s2, f2)) :
    contourTraceLoop x y nbd fn (fuel + 1) img s f =
      contourTraceLoop x y nbd fn fuel (contour_trace4 img f x y nbd) s2 f2 := by
  simp only [contourTraceLoop, h3, h5]

/-- Label grid reached by the diverging trace below after three loop
iterations, constant from then on. -/
def cycleData : List Int := [2, -2, 0, -2, 0, 0, 0, 0, 0]

/-- Three `(start, follow)` pairs through which the diverging trace below
cycles forever. -/
def cyclePairs : List ((Int × Int) × (Int × Int)) :=
  [((-1, 1), (0, 0)), ((0, 0), (-1, 0)), ((-1, 0), (-1, 1))]

/-- Invariant of the diverging run: the label grid and the bookkeeping
flag are constant and the `(start, follow)` pair lies on the cycle (the
point table keeps growing, so it is left unconstrained). -/
def CycleP (img : BinaryImage) (s f : Int × Int) : Prop :=
  img.data = cycleData ∧ img.last_index = -2 ∧ img.width = 3 ∧ img.height = 3 ∧
  (s, f) ∈ cyclePairs

/-- Every state satisfying `CycleP` takes a continuing loop step back into
`CycleP`: the trace can never stop from such a state. -/
theorem cycle_steps (img : BinaryImage) (s f : Int × Int) (hP : CycleP img s f) :
    ∃ found s2 f2, contour_trace3 img s f 1 0 = some found ∧
      contour_trace5 found f s (-1, 0) = some (s2, f2) ∧
      CycleP (contour_trace4 img f 1 0 2) s2 f2 := by
  obtain ⟨hd, hli, hw, hh, hmem⟩ := hP
  simp only [cyclePairs, List.mem_cons, List.not_mem_nil, or_false] at hmem
  have hcore : ∀ (ff : Int × Int),
      CycleP (contour_trace4 img ff 1 0 2) =
        fun s2 f2 => CycleP (contour_trace4 img ff 1 0 2) s2 f2 := fun _ => rfl
  rcases hmem with h | h | h
  · injection h with hs hf
    subst hs
    subst hf
    refine ⟨(-1, 0), (0, 0), (-1, 0), ?_, by decide, ?_, ?_, ?_, ?_, by decide⟩
    · rw [trace3_congr img ⟨[], -2, cycleData, 3, 3⟩ hd hw hh]
      decide
    · exact (trace4_fields_congr img ⟨[], -2, cycleData, 3, 3⟩ hd hli hw hh
        (0, 0) 1 0 2).1.trans (by decide)
    · exact (trace4_fields_congr img ⟨[], -2, cycleData, 3, 3⟩ hd hli hw hh
        (0, 0) 1 0 2).2.1.trans (by decide)
    · exact (trace4_fields_congr img ⟨[], -2, cycleData, 3, 3⟩ hd hli hw hh
        (0, 0) 1 0 2).2.2.1
    · exact (trace4_fields_congr img ⟨[], -2, cycleData, 3, 3⟩ hd hli hw hh
        (0, 0) 1 0 2).2.2.2
  · injection h with hs hf
    subst hs
    subst hf
    refine ⟨(-1, 1), (-1, 0), (-1, 1), ?_, by decide, ?_, ?_, ?_, ?_, by decide⟩
    · rw [trace3_congr img ⟨[], -2, cycleData, 3, 3⟩ hd hw hh]
      decide
    · exact (trace4_fields_congr img ⟨[], -2, cycleData, 3, 3⟩ hd hli hw hh
        (-1, 0) 1 0 2).1.trans (by decide)
    · exact (trace4_fields_congr img ⟨[], -2, cycleData, 3, 3⟩ hd hli hw hh
        (-1, 0) 1 0 2).2.1.trans (by decide)
    · exact (trace4_fields_congr img ⟨[], -2, cycleData, 3, 3⟩ hd hli hw hh
        (-1, 0) 1 0 2).2.2.1
    · exact (trace4_fields_congr img ⟨[], -2, cycleData, 3, 3⟩ hd hli hw hh
        (-1, 0) 1 0 2).2.2.2
  · injection h with hs hf
    subst hs
    subst hf
    refine ⟨(0, 0), (-1, 1), (0, 0), ?_, by decide, ?_, ?_, ?_, ?_, by decide⟩
    · rw [trace3_congr img ⟨[], -2, cycleData, 3, 3⟩ hd hw hh]
      decide
    · exact (trace4_fields_congr img ⟨[], -2, cycleData, 3, 3⟩ hd hli hw hh
        (-1, 1) 1 0 2).1.trans (by decide)
    · exact (trace4_fields_congr img ⟨[], -2, cycleData, 3, 3⟩ hd hli hw hh
        (-1, 1) 1 0 2).2.1.trans (by decide)
    · exact (trace4_fields_congr img ⟨[], -2, cycleData, 3, 3⟩ hd hli hw hh
        (-1, 1) 1 0 2).2.2.1
    · exact (trace4_fields_congr img ⟨[], -2, cycleData, 3, 3⟩ hd hli hw hh
        (-1, 1) 1 0 2).2.2.2

/-- From any state satisfying `CycleP`, the follow loop exhausts any
amount of fuel without stopping. -/
theorem cycle_no_halt : ∀ (fuel : Nat) (img : BinaryImage) (s f : Int × Int),
    CycleP img s f → contourTraceLoop 1 0 2 (-1, 0) fuel img s f = none := by
  intro fuel
  induction fuel with
  | zero => intro img s f _; rfl
  | succ n ih =>
    intro img s f hP
    obtain ⟨found, s2, f2, h3, h5, hP2⟩ := cycle_steps img s f hP
    rw [contourTraceLoop_step 1 0 2 (-1, 0) n img s f found s2 f2 h3 h5]
    exact ih _ _ _ hP2

/-- Divergence of `contour_trace` at a given seed: every amount of fuel
runs out. -/
def TraceDiverges (image : BinaryImage) (x y nbd : Int) : Prop :=
  ∀ fuel : Nat, contour_trace fuel image x y nbd = none

/-- C9, counterexample: on the binary 3x3 grid `[1,1,0; 1,0,0; 0,0,0]`
with seed cell `(1,0)` (a foreground pixel whose left neighbor is also
foreground, so the scan would never pick it, but the claim quantifies over
every seed cell), the follow loop revisits its `(labels, start, follow)`
state after three iterations and runs forever. -/
theorem C9_counterexample :
    TraceDiverges (BinaryImage.new [1, 1, 0, 1, 0, 0, 0, 0, 0] 3 3) 1 0 2 := by
  intro fuel
  show contourTraceLoop 1 0 2 (-1, 0) fuel
    (BinaryImage.new [1, 1, 0, 1, 0, 0, 0, 0, 0] 3 3) (-1, 0) (0, 0) = none
  obtain _ | _ | _ | n := fuel
  · rfl
  · decide
  · decide
  · rw [contourTraceLoop_step 1 0 2 (-1, 0) (n + 2) _ _ _ (-1, 0) (0, 0) (-1, 0)
      (by decide) (by decide)]
    rw [contourTraceLoop_step 1 0 2 (-1, 0) (n + 1) _ _ _ (-1, 1) (-1, 0) (-1, 1)
      (by decide) (by decide)]
    rw [contourTraceLoop_step 1 0 2 (-1, 0) n _ _ _ (0, 0) (-1, 1) (0, 0)
      (by decide) (by decide)]
    exact cycle_no_halt n _ _ _ ⟨by decide, by decide, by decide, by decide, by decide⟩

/-- C9, amended: the follow loop can stop only in the two stated ways — a
one-fuel run of the loop returns a result exactly when the
counter-clockwise scan finds no nonzero neighbor or the found offset is
the `(0,0)` sentinel with the follow position equal to the very first
found neighbor — and the whole trace procedure does terminate whenever the
seed has no nonzero 8-neighbor (then the relabel-and-test path stops
before the loop ever runs).  Termination does not extend to every seed
cell: `C9_counterexample` exhibits a seed from which the loop runs
forever. -/
theorem C9_trace_exits :
    (∀ (image : BinaryImage) (x y nbd : Int) (fuel : Nat),
      (∀ n ∈ neighborValues, image.get (x + n.1) (y + n.2) = 0) →
      ∃ img2, contour_trace fuel image x y nbd = some img2) ∧
    (∀ (image : BinaryImage) (x y nbd : Int) (fn s f : Int × Int),
      (∃ r, contourTraceLoop x y nbd fn 1 image s f = some r) ↔
        (contour_trace3 image s f x y = none ∨
          (contour_trace3 image s f x y = some (0, 0) ∧ f = fn))) := by
  constructor
  · intro image x y nbd fuel hiso
    have hfn : (neighborValues.findSome? (fun neighbor =>
        if image.get (x + neighbor.1) (y + neighbor.2) ≠ 0 then some neighbor else none))
        = none := by
      rw [List.findSome?_eq_none_iff]
      intro n hn
      rw [if_neg (fun hne => hne (hiso n hn))]
    refine ⟨contour_trace4 (image.put x y (-nbd)) (0, 0) x y nbd, ?_⟩
    rw [contour_trace, hfn]
    rfl
  · intro image x y nbd fn s f
    constructor
    · rintro ⟨r, hr⟩
      rcases h3 : contour_trace3 image s f x y with _ | found
      · exact Or.inl rfl
      · rcases h5 : contour_trace5 found f s fn with _ | sf
        · right
          rw [contour_trace5] at h5
          split_ifs at h5 with hcond
          exact ⟨by rw [hcond.1], hcond.2⟩
        · simp only [contourTraceLoop, h3, h5] at hr
          exact absurd hr (by simp [contourTraceLoop])
    · intro h
      rcases h with h3 | ⟨h3, hf⟩
      · exact ⟨image, by simp [contourTraceLoop, h3]⟩
      · refine ⟨contour_trace4 image f x y nbd, ?_⟩
        simp only [contourTraceLoop, h3]
        rw [show contour_trace5 (0, 0) f s fn = none from by
          rw [contour_trace5, if_pos ⟨rfl, hf⟩]]

/-- C9, amended, witness: the single foreground pixel of a 1x1 grid has
no nonzero neighbor and its trace stops with zero loop fuel; and on that
image a one-fuel loop run from the seed returns a result, its neighbor
scan finding no nonzero cell. -/
theorem C9_trace_exits_witness :
    (∃ img2, contour_trace 0 (BinaryImage.new [1] 1 1) 0 0 2 = some img2) ∧
    (∃ r, contourTraceLoop 0 0 2 (-1, 0) 1 (BinaryImage.new [0] 1 1) (-1, 0) (0, 0)
      = some r) :=
  ⟨C9_trace_exits.1 (BinaryImage.new [1] 1 1) 0 0 2 0 (by decide),
   (C9_trace_exits.2 (BinaryImage.new [0] 1 1) 0 0 2 (-1, 0) (-1, 0) (0, 0)).mpr
     (Or.inl (by decide))⟩

/-- Running a sequence of `put` operations `(x, y, pixel)` left to right. -/
def runPuts (img : BinaryImage) (ops : List (Int × Int × Int)) : BinaryImage :=
  ops.foldl (fun im op => im.put op.1 op.2.1 op.2.2) img

/-- Value written by the last in-bounds put of the sequence (bounds taken
against a `w` by `h` grid), if any. -/
def lastInBoundsVal (w h : Nat) : List (Int × Int × Int) → Option Int
  | [] => none
  | op :: rest =>
    match lastInBoundsVal w h rest with
    | some v => some v
    | none =>
      if ((⟨[], 0, [], w, h⟩ : BinaryImage).index_of op.1 op.2.1).isSome then
        some op.2.2
      else none

/-- `put` never changes the dimensions. -/
theorem put_dims (img : BinaryImage) (x y p : Int) :
    (img.put x y p).width = img.width ∧ (img.put x y p).height = img.height := by
  rw [BinaryImage.put]
  rcases img.index_of x y with _ | i
  · exact ⟨rfl, rfl⟩
  · exact ⟨rfl, rfl⟩

/-- An out-of-bounds `put` does nothing at all. -/
theorem put_oob (img : BinaryImage) (x y p : Int) (hio : img.index_of x y = none) :
    img.put x y p = img := by
  rw [BinaryImage.put, hio]

/-- An in-bounds `put` stores the written label in `last_index`. -/
theorem put_last (img : BinaryImage) (x y p : Int) (i : Nat)
    (hio : img.index_of x y = some i) : (img.put x y p).last_index = p := by
  rw [BinaryImage.put, hio]

/-- `runPuts` never changes the dimensions. -/
theorem runPuts_dims (ops : List (Int × Int × Int)) : ∀ img : BinaryImage,
    (runPuts img ops).width = img.width ∧ (runPuts img ops).height = img.height := by
  induction ops with
  | nil => exact fun img => ⟨rfl, rfl⟩
  | cons op rest ih =>
    intro img
    rw [runPuts, List.foldl_cons]
    refine ⟨?_, ?_⟩
    · rw [show (rest.foldl (fun im op => im.put op.1 op.2.1 op.2.2)
        (img.put op.1 op.2.1 op.2.2)) = runPuts (img.put op.1 op.2.1 op.2.2) rest from rfl]
      rw [(ih (img.put op.1 op.2.1 op.2.2)).1, (put_dims img op.1 op.2.1 op.2.2).1]
    · rw [show (rest.foldl (fun im op => im.put op.1 op.2.1 op.2.2)
        (img.put op.1 op.2.1 op.2.2)) = runPuts (img.put op.1 op.2.1 op.2.2) rest from rfl]
      rw [(ih (img.put op.1 op.2.1 op.2.2)).2, (put_dims img op.1 op.2.1 op.2.2).2]

/-- After a sequence of puts, `last_index` holds the value of the last
in-bounds put, or the starting flag if there was none. -/
theorem runPuts_last (ops : List (Int × Int × Int)) : ∀ img : BinaryImage,
    (runPuts img ops).last_index =
      (lastInBoundsVal img.width img.height ops).getD img.last_index := by
  induction ops with
  | nil => exact fun img => rfl
  | cons op rest ih =>
    intro img
    rw [runPuts, List.foldl_cons]
    rw [show (rest.foldl (fun im op => im.put op.1 op.2.1 op.2.2)
      (img.put op.1 op.2.1 op.2.2)) = runPuts (img.put op.1 op.2.1 op.2.2) rest from rfl]
    rw [ih (img.put op.1 op.2.1 op.2.2)]
    rw [(put_dims img op.1 op.2.1 op.2.2).1, (put_dims img op.1 op.2.1 op.2.2).2]
    have hcongr : img.index_of op.1 op.2.1 =
        (⟨[], 0, [], img.width, img.height⟩ : BinaryImage).index_of op.1 op.2.1 :=
      index_of_congr img ⟨[], 0, [], img.width, img.height⟩ rfl rfl op.1 op.2.1
    rcases hio : img.index_of op.1 op.2.1 with _ | i
    · rw [put_oob img op.1 op.2.1 op.2.2 hio]
      have hb : ((⟨[], 0, [], img.width, img.height⟩ : BinaryImage).index_of
          op.1 op.2.1).isSome = false := by
        rw [← hcongr, hio]
        rfl
      rw [lastInBoundsVal, hb]
      rcases hrest : lastInBoundsVal img.width img.height rest with _ | v
      · simp
      · simp
    · rw [put_last img op.1 op.2.1 op.2.2 i hio]
      have hb : ((⟨[], 0, [], img.width, img.height⟩ : BinaryImage).index_of
          op.1 op.2.1).isSome = true := by
        rw [← hcongr, hio]
        rfl
      rw [lastInBoundsVal, hb]
      rcases hrest : lastInBoundsVal img.width img.height rest with _ | v
      · simp
      · simp

/-- The last in-bounds value, when present, was written by one of the
operations. -/
theorem lastInBoundsVal_mem (w h : Nat) (ops : List (Int × Int × Int)) :
    ∀ v : Int, lastInBoundsVal w h ops = some v → ∃ op ∈ ops, op.2.2 = v := by
  induction ops with
  | nil =>
    intro v hv
    simp [lastInBoundsVal] at hv
  | cons op rest ih =>
    intro v hv
    rw [lastInBoundsVal] at hv
    rcases hrest : lastInBoundsVal w h rest with _ | u
    · rw [hrest] at hv
      split_ifs at hv with hb
      injection hv with hv
      exact ⟨op, by simp, hv⟩
    · rw [hrest] at hv
      injection hv with huv
      obtain ⟨op2, hmem, hval⟩ := ih u hrest
      exact ⟨op2, by simp [hmem], hval.trans huv⟩

/-- C10, counterexample: the very first in-bounds put appends an entry
whenever it writes label 0 (the initial `last_index`), although there is
no immediately preceding in-bounds put whose value it could equal. -/
theorem C10_counterexample :
    ((BinaryImage.new [0] 1 1).put 0 0 0).points.length =
      (BinaryImage.new [0] 1 1).points.length + 1 ∧
    lastInBoundsVal 1 1 [] ≠ some 0 := by
  constructor
  · decide
  · decide

/-- C10, amended: after any sequence of puts on a fresh image, an
in-bounds put appends its `(label, normalized position)` entry exactly
when the written label equals the value of the last in-bounds put so far —
or equals 0, the initial `last_index`, when there has been none; an
out-of-bounds put changes nothing; and a put whose nonzero label no
earlier put ever wrote (a freshly minted border id) appends nothing. -/
theorem C10_put_points (data : List Int) (w h : Nat) (ops : List (Int × Int × Int))
    (x y p : Int) :
    ((runPuts (BinaryImage.new data w h) ops).index_of x y ≠ none →
      (((runPuts (BinaryImage.new data w h) ops).put x y p).points =
          (runPuts (BinaryImage.new data w h) ops).points ++
            [(p, Pos.new ((x : ℚ) / (w : ℚ)) ((y : ℚ) / (h : ℚ)))] ↔
        (lastInBoundsVal w h ops).getD 0 = p)) ∧
    (∀ img : BinaryImage, img.index_of x y = none → img.put x y p = img) ∧
    (p ≠ 0 → (∀ op ∈ ops, op.2.2 ≠ p) →
      ((runPuts (BinaryImage.new data w h) ops).put x y p).points =
        (runPuts (BinaryImage.new data w h) ops).points) := by
  have hw : (runPuts (BinaryImage.new data w h) ops).width = w :=
    (runPuts_dims ops (BinaryImage.new data w h)).1
  have hh : (runPuts (BinaryImage.new data w h) ops).height = h :=
    (runPuts_dims ops (BinaryImage.new data w h)).2
  have hlast : (runPuts (BinaryImage.new data w h) ops).last_index =
      (lastInBoundsVal w h ops).getD 0 :=
    runPuts_last ops (BinaryImage.new data w h)
  refine ⟨?_, ?_, ?_⟩
  · intro hin
    rcases hio : (runPuts (BinaryImage.new data w h) ops).index_of x y with _ | i
    · exact absurd hio hin
    · simp only [BinaryImage.put, hio]
      rw [hw, hh]
      by_cases hl : (runPuts (BinaryImage.new data w h) ops).last_index = p
      · rw [if_pos hl]
        exact ⟨fun _ => by rw [← hlast]; exact hl, fun _ => rfl⟩
      · rw [if_neg hl]
        constructor
        · intro hEq
          exfalso
          have := congrArg List.length hEq
          simp at this
        · intro hgd
          exact absurd (by rw [hlast]; exact hgd) hl
  · intro img2 hio
    exact put_oob img2 x y p hio
  · intro hp hall
    have hlne : (runPuts (BinaryImage.new data w h) ops).last_index ≠ p := by
      rw [hlast]
      rcases hv : lastInBoundsVal w h ops with _ | v
      · intro h0
        exact hp ((Option.getD_none ▸ h0).symm)
      · obtain ⟨op2, hmem, hval⟩ := lastInBoundsVal_mem w h ops v hv
        simp only [Option.getD_some]
        rw [← hval]
        exact hall op2 hmem
    rcases hio : (runPuts (BinaryImage.new data w h) ops).index_of x y with _ | i
    · rw [put_oob (runPuts (BinaryImage.new data w h) ops) x y p hio]
    · simp only [BinaryImage.put, hio]
      rw [if_neg hlne]

/-- C10, amended, witness: one in-bounds put of label 5, then another put
of label 5 at the same cell appends its entry (the last in-bounds value is
5), while a fresh label 7 appends nothing. -/
theorem C10_put_points_witness :
    (((runPuts (BinaryImage.new [0] 1 1) [(0, 0, 5)]).put 0 0 5).points =
      (runPuts (BinaryImage.new [0] 1 1) [(0, 0, 5)]).points ++
        [(5, Pos.new (((0 : Int) : ℚ) / ((1 : Nat) : ℚ)) (((0 : Int) : ℚ) / ((1 : Nat) : ℚ)))]) ∧
    (((runPuts (BinaryImage.new [0] 1 1) [(0, 0, 5)]).put 0 0 7).points =
      (runPuts (BinaryImage.new [0] 1 1) [(0, 0, 5)]).points) :=
  ⟨((C10_put_points [0] 1 1 [(0, 0, 5)] 0 0 5).1 (by decide)).mpr (by decide),
   (C10_put_points [0] 1 1 [(0, 0, 5)] 0 0 7).2.2 (by decide)
     (fun op hop => by simp at hop; rw [hop]; decide)⟩

/-- `Curve` from `src/src/contour.rs`: an ordered sequence of points. -/
structure Curve where
  points : List Pos
deriving DecidableEq, Repr

namespace Curve

/-- `Curve::curve_length`: the fold over all points starting from
`(points[0], 0.0)`, accumulating the Euclidean distance between
consecutive points (the first step contributes `|p0 - p0| = 0`).  The
Rust code panics on an empty curve (it indexes `points[0]`); the empty
case here returns 0 and is never produced by the pipeline. -/
noncomputable def curve_length (c : Curve) : ℝ :=
  match c.points with
  | [] => 0
  | p :: _ =>
    (c.points.foldl (fun pa cur => (cur, pa.2 + Pos.magnitude (cur - pa.1))) (p, (0 : ℝ))).2

end Curve

/-- Ordering stage of `main` (`src/src/main.rs` lines 356-364): stable
sort by descending `curve_length` (Rust's `sort_by` with
`y.curve_length().total_cmp(&x.curve_length())`, i.e. `a` before `b` when
`length b ≤ length a`), then find the first position whose length is
strictly below `minimum_length` and truncate there. -/
noncomputable def orderCurves (curves : List Curve) (minimum_length : ℝ) : List Curve :=
  let sorted := curves.mergeSort (fun a b => decide (b.curve_length ≤ a.curve_length))
  match sorted.findIdx? (fun c => decide (c.curve_length < minimum_length)) with
  | some index => sorted.take index
  | none => sorted

/-- `findIdx?` starting from accumulator `s` never reports an index below
`s`. -/
theorem findIdx?_ge {α : Type} (p : α → Bool) :
    ∀ (l : List α) (s i : Nat), List.findIdx? p l s = some i → s ≤ i := by
  intro l
  induction l with
  | nil =>
    intro s i h
    simp [List.findIdx?] at h
  | cons a rest ih =>
    intro s i h
    rw [List.findIdx?_cons] at h
    split_ifs at h with hp
    · injection h with h
      omega
    · exact Nat.le_of_succ_le (ih (s + 1) i h)

/-- Everything strictly before the index reported by `findIdx?` fails the
predicate. -/
theorem findIdx?_take_false {α : Type} (p : α → Bool) :
    ∀ (l : List α) (s i : Nat), List.findIdx? p l s = some i →
      ∀ x ∈ l.take (i - s), p x = false := by
  intro l
  induction l with
  | nil =>
    intro s i h
    simp [List.findIdx?] at h
  | cons a rest ih =>
    intro s i h x hx
    rw [List.findIdx?_cons] at h
    split_ifs at h with hp
    · injection h with heq
      rw [← heq] at hx
      simp at hx
    · have hge : s + 1 ≤ i := findIdx?_ge p rest (s + 1) i h
      have hsplit : i - s = (i - (s + 1)) + 1 := by omega
      rw [hsplit, List.take_succ_cons] at hx
      rcases (List.mem_cons).mp hx with hxa | hxt
      · subst hxa
        exact Bool.not_eq_true _ ▸ (by simpa using hp)
      · exact ih (s + 1) i h x hxt

/-- C8: after the descending sort and the truncation at the first curve
shorter than the threshold, every retained curve has arc length at least
the threshold and the retained list is in descending arc-length order. -/
theorem C8_order_curves (curves : List Curve) (minimum_length : ℝ) :
    (∀ c ∈ orderCurves curves minimum_length, minimum_length ≤ c.curve_length) ∧
    (orderCurves curves minimum_length).Pairwise
      (fun a b => b.curve_length ≤ a.curve_length) := by
  have hsorted : (curves.mergeSort
      (fun a b => decide (b.curve_length ≤ a.curve_length))).Pairwise
      (fun a b => b.curve_length ≤ a.curve_length) := by
    have := @List.sorted_mergeSort Curve
      (fun a b : Curve => decide (b.curve_length ≤ a.curve_length))
      (fun a b c hab hbc => by
        rw [decide_eq_true_eq] at hab hbc ⊢
        exact le_trans hbc hab)
      (fun a b => by
        rcases le_total b.curve_length a.curve_length with h | h
        · simp [h]
        · simp [h])
      curves
    exact this.imp (fun h => by rwa [decide_eq_true_eq] at h)
  rw [orderCurves]
  rcases hidx : (curves.mergeSort
      (fun a b => decide (b.curve_length ≤ a.curve_length))).findIdx?
      (fun c => decide (c.curve_length < minimum_length)) with _ | i
  · rw [hidx]
    refine ⟨?_, hsorted⟩
    intro c hc
    have := List.findIdx?_eq_none_iff.mp hidx c hc
    rw [decide_eq_false_iff_not] at this
    exact not_lt.mp this
  · rw [hidx]
    refine ⟨?_, (List.Pairwise.sublist (List.take_sublist i _) hsorted)⟩
    intro c hc
    have := findIdx?_take_false _ _ 0 i hidx c (by simpa using hc)
    rw [decide_eq_false_iff_not] at this
    exact not_lt.mp this

/-- C8, witness: the ordering stage of an empty curve list retains
nothing, trivially satisfying both properties. -/
theorem C8_order_curves_witness :
    (∀ c ∈ orderCurves [] (0 : ℝ), (0 : ℝ) ≤ c.curve_length) ∧
    (orderCurves [] (0 : ℝ)).Pairwise (fun a b => b.curve_length ≤ a.curve_length) :=
  C8_order_curves [] 0

/-- Cross product of two offsets, used by the perpendicular-distance
formula of the simplifier. -/
def cross (u v : Pos) : ℚ := u.x * v.y - u.y * v.x

/-- Modelled from the spec (section 4.7): perpendicular distance of `p`
from the chord `(a, b)` as `|cross(chord, p - a)| / |chord|` (a
divide-by-zero on a degenerate zero-length chord, flagged open in the
spec; real division by zero yields 0 here). -/
noncomputable def perpDist (a b p : Pos) : ℝ :=
  |((cross (b - a) (p - a) : ℚ) : ℝ)| / Pos.magnitude (b - a)

/-- First-max scan over a distance list, carrying the next index and the
best `(index, distance)` so far. -/
noncomputable def argmaxAux : List ℝ → Nat → Nat × ℝ → Nat × ℝ
  | [], _, best => best
  | d :: rest, i, best => argmaxAux rest (i + 1) (if best.2 < d then (i, d) else best)

/-- Index and value of the first maximum of a distance list. -/
noncomputable def interiorArgmax : List ℝ → Option (Nat × ℝ)
  | [] => none
  | d :: rest => some (argmaxAux rest 1 (0, d))

/-- The scan never reports an index at or past `next + remaining`. -/
theorem argmaxAux_fst_lt : ∀ (l : List ℝ) (i : Nat) (best : Nat × ℝ),
    best.1 < i → (argmaxAux l i best).1 < i + l.length := by
  intro l
  induction l with
  | nil =>
    intro i best h
    simpa [argmaxAux] using h
  | cons d rest ih =>
    intro i best h
    rw [argmaxAux]
    have hnext : (if best.2 < d then (i, d) else best).1 < i + 1 := by
      split_ifs
      · omega
      · omega
    have := ih (i + 1) (if best.2 < d then (i, d) else best) hnext
    simpa [Nat.add_assoc, Nat.add_comm 1 rest.length] using this

/-- The reported maximum index stays below the list length (0 for an
empty list). -/
theorem interiorArgmax_fst_le (ds : List ℝ) :
    ((interiorArgmax ds).getD (0, 0)).1 ≤ ds.length - 1 := by
  rcases ds with _ | ⟨d, rest⟩
  · rw [interiorArgmax]
    rfl
  · rw [interiorArgmax]
    have := argmaxAux_fst_lt rest 1 (0, d) (by omega)
    simp only [Option.getD_some, List.length_cons]
    omega

/-- Modelled from the spec (section 4.7): the Ramer-Douglas-Peucker pass
of the curve simplifier called from `src/src/contour.rs` line 241, whose
curve-based implementation is not in the snapshot (the `simplify.rs`
present is a stale line-based revision).  Chord from first to last point;
first interior point of maximum perpendicular distance; if that maximum
exceeds the tolerance, recursively simplify the two sub-curves split
there and concatenate with the split point shared once; otherwise
collapse to the two chord endpoints. -/
noncomputable def simplify (tolerance : ℝ) (pts : List Pos) : List Pos :=
  if h : pts.length ≤ 2 then pts
  else
    let first := pts.headD ⟨0, 0⟩
    let last := pts.getLastD ⟨0, 0⟩
    let ds := ((pts.drop 1).dropLast).map (perpDist first last)
    let best := (interiorArgmax ds).getD (0, 0)
    if tolerance < best.2 then
      simplify tolerance (pts.take (best.1 + 2)) ++
        (simplify tolerance (pts.drop (best.1 + 1))).tail
    else [first, last]
termination_by pts.length
decreasing_by
· have hb := interiorArgmax_fst_le
    (((pts.drop 1).dropLast).map (perpDist (pts.headD ⟨0, 0⟩) (pts.getLastD ⟨0, 0⟩)))
  simp only [List.length_take, List.length_map, List.length_dropLast,
    List.length_drop] at hb ⊢
  omega
· simp only [List.length_drop]
  omega

/-- Modelled from the spec (sections 4.7 and 7): `simplify_borders` as
called at `src/src/contour.rs` line 241 on the extracted curves — a
negative tolerance is a fatal configuration error rejected before any
curve is processed (`none`, no partial work); otherwise every curve is
reduced by the RDP pass. -/
noncomputable def simplify_borders (curves : List Curve) (tolerance : ℝ) :
    Option (List Curve) :=
  if tolerance < 0 then none
  else some (curves.map (fun c => ⟨simplify tolerance c.points⟩))

/-- `head?` of a nonempty list is its `headD`. -/
theorem head?_eq_headD {α : Type} (l : List α) (d : α) (h : l ≠ []) :
    l.head? = some (l.headD d) := by
  cases l with
  | nil => exact absurd rfl h
  | cons a t => rfl

/-- `getLast?` of a nonempty list is its `getLastD`. -/
theorem getLast?_eq_getLastD {α : Type} : ∀ (l : List α) (d : α), l ≠ [] →
    l.getLast? = some (l.getLastD d) := by
  intro l
  induction l with
  | nil => exact fun d h => absurd rfl h
  | cons a t ih =>
    intro d _
    cases t with
    | nil => rfl
    | cons b t2 =>
      rw [List.getLast?_cons_cons, List.getLastD_cons, ih a (by simp)]

/-- `head?` of an append with nonempty left part. -/
theorem head?_append_ne {α : Type} (l r : List α) (h : l ≠ []) :
    (l ++ r).head? = l.head? := by
  cases l with
  | nil => exact absurd rfl h
  | cons a t => rfl

/-- `getLast?` of an append with nonempty right part. -/
theorem getLast?_append_ne {α : Type} (l r : List α) (h : r ≠ []) :
    (l ++ r).getLast? = r.getLast? := by
  rw [List.getLast?_append]
  rcases hr : r.getLast? with _ | x
  · rw [List.getLast?_eq_none_iff] at hr
    exact absurd hr h
  · rfl

/-- Structural properties of the RDP pass, by strong induction on the
curve length: first point, last point, a result of at least two points,
and no more points than the input. -/
theorem simplify_spec (tolerance : ℝ) :
    ∀ (n : Nat) (pts : List Pos), pts.length = n → 2 ≤ pts.length →
      (simplify tolerance pts).head? = pts.head? ∧
      (simplify tolerance pts).getLast? = pts.getLast? ∧
      2 ≤ (simplify tolerance pts).length ∧
      (simplify tolerance pts).length ≤ pts.length := by
  intro n
  induction n using Nat.strong_induction_on with
  | _ n ih =>
    intro pts hlen h2
    by_cases hle : pts.length ≤ 2
    · rw [simplify, dif_pos hle]
      exact ⟨rfl, rfl, h2, le_refl _⟩
    · have h3 : 3 ≤ pts.length := by omega
      have hne : pts ≠ [] := by
        intro hnil
        rw [hnil] at h3
        simp at h3
      have hunfold : simplify tolerance pts =
          if tolerance < ((interiorArgmax (((pts.drop 1).dropLast).map
              (perpDist (pts.headD ⟨0, 0⟩) (pts.getLastD ⟨0, 0⟩)))).getD (0, 0)).2 then
            simplify tolerance (pts.take (((interiorArgmax (((pts.drop 1).dropLast).map
              (perpDist (pts.headD ⟨0, 0⟩) (pts.getLastD ⟨0, 0⟩)))).getD (0, 0)).1 + 2)) ++
            (simplify tolerance (pts.drop (((interiorArgmax (((pts.drop 1).dropLast).map
              (perpDist (pts.headD ⟨0, 0⟩) (pts.getLastD ⟨0, 0⟩)))).getD (0, 0)).1 + 1))).tail
          else [pts.headD ⟨0, 0⟩, pts.getLastD ⟨0, 0⟩] := by
        rw [simplify, dif_neg hle]
      have hqball := interiorArgmax_fst_le (((pts.drop 1).dropLast).map
        (perpDist (pts.headD ⟨0, 0⟩) (pts.getLastD ⟨0, 0⟩)))
      simp only [List.length_map, List.length_dropLast, List.length_drop] at hqball
      rw [hunfold]
      set q := ((interiorArgmax (((pts.drop 1).dropLast).map
        (perpDist (pts.headD ⟨0, 0⟩) (pts.getLastD ⟨0, 0⟩)))).getD (0, 0)) with hq
      by_cases hc : tolerance < q.2
      · rw [if_pos hc]
        obtain ⟨iL1, iL2, iL3, iL4⟩ := ih (pts.take (q.1 + 2)).length
          (by simp only [List.length_take]; omega) (pts.take (q.1 + 2)) rfl
          (by simp only [List.length_take]; omega)
        obtain ⟨iR1, iR2, iR3, iR4⟩ := ih (pts.drop (q.1 + 1)).length
          (by simp only [List.length_drop]; omega) (pts.drop (q.1 + 1)) rfl
          (by simp only [List.length_drop]; omega)
        have hSLne : simplify tolerance (pts.take (q.1 + 2)) ≠ [] := by
          intro hnil
          rw [hnil] at iL3
          simp at iL3
        have htail_ne : (simplify tolerance (pts.drop (q.1 + 1))).tail ≠ [] := by
          intro hnil
          have := congrArg List.length hnil
          simp only [List.length_tail, List.length_nil] at this
          omega
        refine ⟨?_, ?_, ?_, ?_⟩
        · rw [head?_append_ne _ _ hSLne, iL1, List.head?_take, if_neg (by omega)]
        · rw [getLast?_append_ne _ _ htail_ne, List.getLast?_tail, if_neg (by omega),
            iR2, List.getLast?_drop, if_neg (by omega)]
        · simp only [List.length_append, List.length_tail]
          omega
        · simp only [List.length_append, List.length_tail]
          simp only [List.length_take, List.length_drop] at iL4 iR4
          omega
      · rw [if_neg hc]
        refine ⟨?_, ?_, by simp, ?_⟩
        · rw [show ([pts.headD ⟨0, 0⟩, pts.getLastD ⟨0, 0⟩] : List Pos).head? =
            some (pts.headD ⟨0, 0⟩) from rfl, head?_eq_headD pts ⟨0, 0⟩ hne]
        · rw [show ([pts.headD ⟨0, 0⟩, pts.getLastD ⟨0, 0⟩] : List Pos).getLast? =
            some (pts.getLastD ⟨0, 0⟩) from rfl, getLast?_eq_getLastD pts ⟨0, 0⟩ hne]
        · simp only [List.length_cons, List.length_nil]
          omega

/-- C1: for every curve of at least two points and every tolerance, the
RDP pass keeps the first point, keeps the last point, and never increases
the point count. -/
theorem C1_simplify (pts : List Pos) (tolerance : ℝ) (h2 : 2 ≤ pts.length) :
    (simplify tolerance pts).head? = pts.head? ∧
    (simplify tolerance pts).getLast? = pts.getLast? ∧
    (simplify tolerance pts).length ≤ pts.length :=
  ⟨(simplify_spec tolerance pts.length pts rfl h2).1,
   (simplify_spec tolerance pts.length pts rfl h2).2.1,
   (simplify_spec tolerance pts.length pts rfl h2).2.2.2⟩

/-- C1, witness: a two-point curve at tolerance 0. -/
theorem C1_simplify_witness :
    (simplify 0 [Pos.new 0 0, Pos.new 1 0]).head? = [Pos.new 0 0, Pos.new 1 0].head? ∧
    (simplify 0 [Pos.new 0 0, Pos.new 1 0]).getLast? = [Pos.new 0 0, Pos.new 1 0].getLast? ∧
    (simplify 0 [Pos.new 0 0, Pos.new 1 0]).length ≤ [Pos.new 0 0, Pos.new 1 0].length :=
  C1_simplify [Pos.new 0 0, Pos.new 1 0] 0 (by decide)

/-- C5: a negative simplification tolerance is rejected before any curve
processing: `simplify_borders` returns no result at all for every curve
list. -/
theorem C5_negative_tolerance (curves : List Curve) (tolerance : ℝ)
    (h : tolerance < 0) : simplify_borders curves tolerance = none := by
  rw [simplify_borders, if_pos h]

/-- C5, witness: tolerance -1 on a concrete one-curve list is rejected. -/
theorem C5_negative_tolerance_witness :
    simplify_borders [⟨[Pos.new 0 0, Pos.new 1 0]⟩] (-1) = none :=
  C5_negative_tolerance [⟨[Pos.new 0 0, Pos.new 1 0]⟩] (-1) (by norm_num)
